import Mathlib

/-!
# Verification of the tradle context-sharing engine (contextsDB)

Shallow embedding of `src/index.js` / `src/unnamed/part_000` (the module
`contextsDB`): a context-based message re-sharing engine.  JavaScript strings
are modelled as lists of character codes (`Str := List Nat`); `undefined`
string fields are `Option Str`; the asynchronous callback pipeline of the
feed-indexer is modelled as pure state-passing, with each view's `reduce`
a pure function `Option State → Change → Option State` (`none` = drop).

External collaborators (the feed-indexer library's read-stream semantics and
the `lexicographic-integer` encoding) are not in `src/`; where needed they are
modelled from the spec (`spec.md` §4.C, §4.D) and marked `Modelled from the
spec:` in their doc comments.
-/

namespace TradleCtx

/-- JavaScript strings modelled as lists of character codes. -/
abbrev Str := List Nat

/-- Modelled from the spec: the indexer library's reserved single-character
separator `sep` (§4.C: "A shared single-character separator (`sep`) is
reserved and MUST NOT appear in any key fragment"); the feed-indexer library
uses `'!'` (code 33). -/
def sep : Nat := 33

/-- The character `'\xff'` (code 255) used as the upper bound of a context's
rows in `createContextStream` (src/unnamed/part_000 line 325). -/
def xff : Nat := 255

/-- JavaScript truthiness of an optional string: `undefined` and the empty
string are falsy (used by guards such as `if (!context) return cb()`). -/
def jsTruthy : Option Str → Bool
  | none => false
  | some s => !s.isEmpty

/-- Lexicographic strict order on byte strings, the order of the ordered
key-value store backing the secondary indexes (spec §6: "an ordered
byte-string keyspace"). -/
def lexLt : Str → Str → Bool
  | [], [] => false
  | [], _ :: _ => true
  | _ :: _, [] => false
  | a :: as, b :: bs => a < b || (a == b && lexLt as bs)

/-- Non-strict lexicographic order (for the inclusive `gte`/`lte` bounds). -/
def lexLe (a b : Str) : Bool :=
  a == b || lexLt a b

/-! ## hex_lexint: the lexicographic integer encoding

`hex(n)` in the source is `lexint.pack(n, 'hex')` (src/unnamed/part_000
lines 373-375), delegating to the external `lexicographic-integer` package. -/

/-- Hex digit character code of a value (0-9 → '0'-'9', 10-15 → 'a'-'f'). -/
def hexDigit (n : Nat) : Nat :=
  if n < 10 then 48 + n else 87 + n

/-- The two hex digit characters of one byte. -/
def byteToHex (b : Nat) : Str :=
  [hexDigit (b / 16), hexDigit (b % 16)]

/-- Hex string of a byte sequence. -/
def hexOfBytes (l : List Nat) : Str :=
  l.flatMap byteToHex

/-- Big-endian base-256 digits, with explicit fuel to keep the definition
kernel-reducible (the fuel is always sufficient: `n` itself bounds the
number of divisions by 256). -/
def bytesBEAux : Nat → Nat → List Nat
  | 0, _ => []
  | fuel + 1, n => if n = 0 then [] else bytesBEAux fuel (n / 256) ++ [n % 256]

/-- Big-endian base-256 digits of `n` (empty for 0, no leading zeros). -/
def bytesBE (n : Nat) : List Nat :=
  bytesBEAux n n

/-- Modelled from the spec: `hex_lexint` (§4.D), the external
`lexicographic-integer` dependency behind `hex(n) = lexint.pack(n, 'hex')` —
"a lexicographically-sortable hexadecimal encoding of a non-negative integer
(length-prefixed …)".  Values up to 250 are one byte; larger values are the
big-endian byte digits preceded by a length byte `250 + #digits`. -/
def pack (n : Nat) : List Nat :=
  if n ≤ 250 then [n] else (250 + (bytesBE n).length) :: bytesBE n

/-- The function `hex(n)`: the hex string of the packed encoding
(src/unnamed/part_000 lines 373-375). -/
def hex (n : Nat) : Str :=
  hexOfBytes (pack n)

/-! ## Data model: change entries

A change entry of the append-only feed: `change` is the monotonic feed index,
`value` the payload, distinguished by `topic` (spec §3).  For `newobj`
payloads, the fields resolved asynchronously in the source (the body via
`keeper.get`, the `objectinfo` metadata via `node.objects.get`) are carried
as explicit fields:

* `context`       — `getContext(value)`: the message body's own context
                    (default getter `val.object.context`);
* `objectinfoIsMessage` — `value.objectinfo.type === MESSAGE_TYPE`;
* `objectinfoContext`   — `getContext(value.objectinfo)`;
* `innerIsMessage` — `val.object.object && val.object.object[TYPE] === MESSAGE_TYPE`
                    (the doubly-wrapped, second-tier case);
* `originalSeq`   — the feed index of the original inner message, as resolved
                    by `node.objects.get(val.objectinfo.link)` in the
                    second-tier branch of the share view's reduce. -/
inductive ChangeValue where
  | newobj (type : Str) (permalink : Str) (context : Option Str)
      (recipient : Option Str) (objectinfoIsMessage : Bool)
      (objectinfoContext : Option Str) (innerIsMessage : Bool)
      (originalSeq : Nat)
  | sharectx (context : Option Str) (recipient : Option Str) (seq : Nat)
  | unsharectx (context : Option Str) (recipient : Option Str)
deriving DecidableEq

/-- A feed entry: monotonic feed index (`change`) plus payload (`value`). -/
structure Change where
  change : Nat
  value : ChangeValue
deriving DecidableEq

/-- The distinguished `MESSAGE_TYPE` constant (`"tradle.Message"`),
borrowed from the node's constants. -/
def MESSAGE_TYPE : Str :=
  [116, 114, 97, 100, 108, 101, 46, 77, 101, 115, 115, 97, 103, 101]

/-- Accessor `getRecipient(val)` (src/unnamed/part_000 lines 342-344). -/
def getRecipient : ChangeValue → Option Str
  | .newobj _ _ _ r _ _ _ _ => r
  | .sharectx _ r _ => r
  | .unsharectx _ r => r

/-- The wrapped context getter `wrapGetContext(getContext)(value, testSecondTier)`
(src/unnamed/part_000 lines 358-367): for non-`newobj` topics, the entry's
own `context` field; for `newobj`, when `testSecondTier` is set and the
`objectinfo` is itself a message (a forwarded wrapper), the context of the
`objectinfo`; otherwise the context of the value's body. -/
def getContext (v : ChangeValue) (testSecondTier : Bool) : Option Str :=
  match v with
  | .newobj _ _ ctx _ oiMsg oiCtx _ _ =>
      if testSecondTier && oiMsg then oiCtx else ctx
  | .sharectx ctx _ _ => ctx
  | .unsharectx ctx _ => ctx

/-! ## Message View (indexedMsgDB) -/

/-- A Message View row (primary row keyed by `permalink`, spec §3):
`seq` is the feed index at which this message was first observed. -/
structure MsgState where
  permalink : Str
  context : Str
  recipient : Option Str
  seq : Nat
deriving DecidableEq

/-- Message View filter (src/unnamed/part_000 line 89):
`value.topic === topics.newobj && value.type === MESSAGE_TYPE`. -/
def msgFilter : ChangeValue → Bool
  | .newobj t _ _ _ _ _ _ _ => t = MESSAGE_TYPE
  | _ => false

/-- The primary key of a `newobj` entry in the Message View: the permalink. -/
def msgPrimaryKey : ChangeValue → Str
  | .newobj _ pl _ _ _ _ _ _ => pl
  | _ => []

/-- Message View reduce (src/unnamed/part_000 lines 90-104): an existing
state is returned unchanged ("each message's state gets written exactly
once"); otherwise, if the message has no context the entry is dropped, else
a fresh row is written with `seq = getMessageSeq(change)` — the default
`getMessageSeq` being `change => change.change`, the feed index. -/
def msgReduce (state : Option MsgState) (ch : Change) : Option MsgState :=
  match state with
  | some s => some s
  | none =>
      let context := getContext ch.value false
      if jsTruthy context then
        some { permalink := msgPrimaryKey ch.value,
               context := context.getD [],
               recipient := getRecipient ch.value,
               seq := ch.change }
      else
        none

/-- One Message View pipeline step over the primary-key map (spec §4.C:
filter, primary key, reduce; drop leaves the view unchanged). -/
def msgViewStep (view : Str → Option MsgState) (ch : Change) :
    Str → Option MsgState :=
  if msgFilter ch.value then
    let k := msgPrimaryKey ch.value
    match msgReduce (view k) ch with
    | some ns => fun q => if q = k then some ns else view q
    | none => view
  else
    view

/-- The `context` secondary index key of a Message View row
(src/unnamed/part_000 lines 107-112):
`state.context + sep + hex(state.seq) + sep + state.permalink`. -/
def contextIndexKey (s : MsgState) : Str :=
  s.context ++ [sep] ++ hex s.seq ++ [sep] ++ s.permalink

/-- Modelled from the spec: the indexer library's `readStream` over a
secondary index (§4.C): emits, in key order, the values of the index rows
whose key lies strictly between the `gt` and `lt` bounds (both exclusive),
keys compared lexicographically.  The index is a key-ordered list of
`(key, state)` rows. -/
def readStream (idx : List (Str × MsgState)) (gtB ltB : Str) : List MsgState :=
  (idx.filter fun kv => lexLt gtB kv.1 && lexLt kv.1 ltB).map Prod.snd

/-- The stream `createContextStream(opts)` (src/unnamed/part_000 lines 319-330): a read
over the Message View's `context` index with
`gt = opts.context + sep + hex(opts.seq || 0)` and
`lt = opts.context + sep + '\xff'`. -/
def createContextStream (context : Str) (seq : Option Nat)
    (idx : List (Str × MsgState)) : List MsgState :=
  readStream idx (context ++ [sep] ++ hex (seq.getD 0)) (context ++ [sep] ++ [xff])

/-! ## Share View (indexedCtxDB) -/

/-- A Share View row (primary row keyed by `context + ":" + recipient`,
spec §3): `active` mirrors the JavaScript field which is absent (`none`)
until the first control entry, then `some true`/`some false`;
`seq` is the pair's cursor. -/
structure ShareState where
  context : Str
  recipient : Option Str
  seq : Nat
  active : Option Bool
deriving DecidableEq

/-- The fresh-record builder `newContextState({context, recipient})` (src/unnamed/part_000 lines
346-352): destructures only `context` and `recipient` from its argument and
returns `{context, recipient, seq: 0}` — no `active` field, and any `seq`
on the argument is ignored. -/
def newContextState (context : Option Str) (recipient : Option Str) : ShareState :=
  { context := context.getD [], recipient := recipient, seq := 0, active := none }

/-- Share View filter (src/unnamed/part_000 lines 144-148):
`(val.topic === topics.newobj && val.type === MESSAGE_TYPE) ||
val.topic === sharectx || val.topic === unsharectx`. -/
def ctxFilter : ChangeValue → Bool
  | .newobj t _ _ _ _ _ _ _ => t = MESSAGE_TYPE
  | .sharectx _ _ _ => true
  | .unsharectx _ _ => true

/-- Share View reduce (src/unnamed/part_000 lines 149-193).  The context is
the stored state's context, or `getContext(val, true)` (second tier tested)
for a fresh state; a falsy context drops the entry.  `newobj` entries set the
cursor `seq` to the original inner message's feed index in the doubly-wrapped
(second-tier) case, else to the entry's own feed index; `sharectx` sets
`active = true` (building a fresh state from `newContextState(val)` when
absent); `unsharectx` on a known pair sets `active = false` and is a no-op
otherwise.  A new state deep-equal to the previous one is dropped. -/
def ctxReduce (state : Option ShareState) (ch : Change) : Option ShareState :=
  let context := match state with
    | some s => some s.context
    | none => getContext ch.value true
  if jsTruthy context then
    match ch.value with
    | .newobj _ _ _ rcpt _ _ innerIsMessage originalSeq =>
        let ns := match state with
          | some s => s
          | none => newContextState context rcpt
        let ns := if innerIsMessage then { ns with seq := originalSeq }
                  else { ns with seq := ch.change }
        if state = some ns then none else some ns
    | .sharectx ctx rcpt _ =>
        let ns := match state with
          | some s => s
          | none => newContextState ctx rcpt
        let ns := { ns with active := some true }
        if state = some ns then none else some ns
    | .unsharectx _ _ =>
        match state with
        | none => none
        | some s =>
            let ns := { s with active := some false }
            if state = some ns then none else some ns
  else
    none

/-- One Share View pipeline step for a fixed primary key (all entries routed
to one `(context, recipient)` pair): filtered-out entries and drops leave the
state unchanged. -/
def ctxStep (state : Option ShareState) (ch : Change) : Option ShareState :=
  if ctxFilter ch.value then
    match ctxReduce state ch with
    | some ns => some ns
    | none => state
  else
    state

/-- The share record of a pair after processing a feed prefix. -/
def foldShare (feed : List Change) : Option ShareState :=
  feed.foldl ctxStep none

/-- The `cfr` (contextForRecipient) secondary index key of a share record
(src/unnamed/part_000 lines 198-204): absent for context-less or inactive
states; otherwise `state.context + sep + state.recipient + sep` (the trailing
separator makes the exact-prefix read of `position` match exactly one pair). -/
def cfrKey (s : ShareState) : Option Str :=
  if s.context.isEmpty || !(s.active.getD false) then none
  else some (s.context ++ [sep] ++ s.recipient.getD [] ++ [sep])

/-- Whether a share record owns a row in the `cfr` index. -/
def hasCfrRow (st : Option ShareState) : Bool :=
  match st with
  | some s => (cfrKey s).isSome
  | none => false

/-- The `cfr` index rows generated from the Share View's primary rows. -/
def cfrIndex (states : List ShareState) : List (Str × ShareState) :=
  states.filterMap fun s => (cfrKey s).map fun k => (k, s)

/-- Modelled from the spec: the `eq` read over a secondary index (§4.C:
"`eq` (convenience for `gte=x, lte=x+sep`)") — emits the values of the rows
whose key lies in the inclusive interval `[x, x + sep]`. -/
def readStreamEq (idx : List (Str × ShareState)) (x : Str) : List ShareState :=
  (idx.filter fun kv => lexLe x kv.1 && lexLe kv.1 (x ++ [sep])).map Prod.snd

/-- The query `position({context, recipient}, cb)` (src/unnamed/part_000 lines
225-238): throws synchronously unless both `context` and `recipient` are
truthy; otherwise reads the `cfr` index with `eq = context + sep + recipient`
through `cursor` (which additionally filters out inactive rows,
lines 240-254); the first row's `seq` is returned, and an exhausted stream
yields the `'context not shared with recipient'` error. -/
def positionCall (context recipient : Option Str) (states : List ShareState) :
    Except String Nat :=
  if !(jsTruthy context && jsTruthy recipient) then
    .error "expected context and recipient"
  else
    match (readStreamEq (cfrIndex states)
        (context.getD [] ++ [sep] ++ recipient.getD [])).filter
        (fun d => d.active = some true) with
    | [] => .error "context not shared with recipient"
    | d :: _ => .ok d.seq

/-! ## Forwarding controller and public API -/

/-- The inflight-map identifier of `forward(data)`
(src/unnamed/part_000 line 303): `data.context + data.recipient` —
plain string concatenation, no separator. -/
def forwardIdentifier (context recipient : Str) : Str :=
  context ++ recipient

/-- One `forward(data)` call (src/unnamed/part_000 lines 302-317) against
the process-local `forwarding` map, modelled as the list of identifiers that
own a session: if the identifier already has a session, nothing happens
(`false`); otherwise a forwarding session is allocated for it (`true`). -/
def forwardStep (inflight : List Str) (context recipient : Str) :
    List Str × Bool :=
  if inflight.contains (forwardIdentifier context recipient) then
    (inflight, false)
  else
    (forwardIdentifier context recipient :: inflight, true)

/-- The append `share({context, recipient, seq=0}, cb)` (src/unnamed/part_000 lines
273-281): no validation; unconditionally appends a `sharectx` entry carrying
the given fields (with `seq` defaulting to 0). -/
def shareCall (context recipient : Option Str) (seq : Option Nat) :
    Except String ChangeValue :=
  .ok (.sharectx context recipient (seq.getD 0))

/-- The append `unshare({context, recipient}, cb)` (src/unnamed/part_000 lines
283-290): no validation; unconditionally appends an `unsharectx` entry. -/
def unshareCall (context recipient : Option Str) : Except String ChangeValue :=
  .ok (.unsharectx context recipient)

/-- The argument handling of `createContextStream(opts)`
(src/unnamed/part_000 lines 319-321): throws synchronously when
`opts.context` is falsy, else opens the context read. -/
def createContextStreamCall (context : Option Str) (seq : Option Nat)
    (idx : List (Str × MsgState)) : Except String (List MsgState) :=
  if jsTruthy context then
    .ok (createContextStream (context.getD []) seq idx)
  else
    .error "expected context"

/-- The cursor value a `newobj` entry writes into the share record's `seq`
(src/unnamed/part_000 lines 162-173): the original inner message's feed index
in the doubly-wrapped (second-tier) case, the entry's own feed index
otherwise; control entries derive no cursor value. -/
def derivedSeq (ch : Change) : Option Nat :=
  match ch.value with
  | .newobj _ _ _ _ _ _ innerIsMessage originalSeq =>
      some (if innerIsMessage then originalSeq else ch.change)
  | _ => none

/-- The most recent control verdict of a feed prefix: `some true` when the
last `sharectx`/`unsharectx` entry is a `sharectx`, `some false` when it is
an `unsharectx`, `none` when no control entry occurs. -/
def ctlStep (acc : Option Bool) (ch : Change) : Option Bool :=
  match ch.value with
  | .sharectx _ _ _ => some true
  | .unsharectx _ _ => some false
  | _ => acc

/-- The most recent control verdict over a whole feed prefix. -/
def ctlFold (feed : List Change) : Option Bool :=
  feed.foldl ctlStep none

/-- Whether a feed prefix contains at least one `sharectx` entry. -/
def hasSharectx (feed : List Change) : Bool :=
  feed.any fun ch =>
    match ch.value with
    | .sharectx _ _ _ => true
    | _ => false

end TradleCtx

namespace TradleCtx

/-! ## Lexicographic order lemmas -/

theorem lexLt_append_left (l a b : Str) :
    lexLt (l ++ a) (l ++ b) = lexLt a b := by
  induction l with
  | nil => rfl
  | cons x xs ih => simp [lexLt, ih]

theorem lexLt_cons_of_lt {a b : Nat} (h : a < b) (s1 s2 : Str) :
    lexLt (a :: s1) (b :: s2) = true := by
  simp [lexLt, h]

theorem lexLt_append_right (l : Str) {s : Str} (h : s ≠ []) :
    lexLt l (l ++ s) = true := by
  induction l with
  | nil => cases s with
    | nil => exact absurd rfl h
    | cons x xs => simp [lexLt]
  | cons x xs ih => simp [lexLt, ih]

theorem lexLt_cons_iff {a b : Nat} {as bs : Str} :
    lexLt (a :: as) (b :: bs) = true ↔ a < b ∨ (a = b ∧ lexLt as bs = true) := by
  simp [lexLt]

theorem lexLt_asymm : ∀ {a b : Str}, lexLt a b = true → lexLt b a = false
  | [], [], h => by simp [lexLt] at h
  | [], _ :: _, _ => by simp [lexLt]
  | _ :: _, [], h => by simp [lexLt] at h
  | a :: as, b :: bs, h => by
    rw [lexLt_cons_iff] at h
    rw [Bool.eq_false_iff]
    intro hba
    rw [lexLt_cons_iff] at hba
    rcases h with h | ⟨rfl, h⟩ <;> rcases hba with hb | ⟨he, hb⟩
    · omega
    · omega
    · omega
    · rw [lexLt_asymm h] at hb
      exact absurd hb (by decide)

theorem lexLt_irrefl (a : Str) : lexLt a a = false := by
  induction a with
  | nil => rfl
  | cons x xs ih => simp [lexLt, ih]

theorem hexDigit_lt_of_lt {a b : Nat} (h : a < b) : hexDigit a < hexDigit b := by
  unfold hexDigit
  split <;> split <;> omega

theorem byteToHex_lt {b1 b2 : Nat} (h : b1 < b2) (s1 s2 : Str) :
    lexLt (byteToHex b1 ++ s1) (byteToHex b2 ++ s2) = true := by
  have hcase : b1 / 16 < b2 / 16 ∨ (b1 / 16 = b2 / 16 ∧ b1 % 16 < b2 % 16) := by
    omega
  rcases hcase with hc | ⟨he, hm⟩
  · exact lexLt_cons_of_lt (hexDigit_lt_of_lt hc) _ _
  · simp only [byteToHex, he, List.cons_append, List.nil_append]
    simp only [lexLt, lexLt_irrefl, beq_self_eq_true, Bool.true_and,
      decide_eq_true_eq, Bool.or_eq_true]
    right
    exact Or.inl (hexDigit_lt_of_lt hm)

theorem bytesBEAux_congr : ∀ (f1 f2 n : Nat), n ≤ f1 → n ≤ f2 →
    bytesBEAux f1 n = bytesBEAux f2 n := by
  intro f1
  induction f1 with
  | zero =>
    intro f2 n h1 _
    interval_cases n
    cases f2 <;> simp [bytesBEAux]
  | succ k ih =>
    intro f2 n h1 h2
    rcases Nat.eq_zero_or_pos n with rfl | hn
    · cases f2 <;> simp [bytesBEAux]
    · cases f2 with
      | zero => omega
      | succ j =>
        have hd : n / 256 < n := Nat.div_lt_self hn (by omega)
        simp only [bytesBEAux, if_neg (by omega : ¬ n = 0)]
        rw [ih j (n / 256) (by omega) (by omega)]

theorem bytesBE_eq (n : Nat) :
    bytesBE n = if n = 0 then [] else bytesBE (n / 256) ++ [n % 256] := by
  rcases Nat.eq_zero_or_pos n with rfl | hn
  · rfl
  · have hd : n / 256 < n := Nat.div_lt_self hn (by omega)
    unfold bytesBE
    cases n with
    | zero => omega
    | succ k =>
      simp only [bytesBEAux, if_neg (by omega : ¬ k + 1 = 0),
        if_neg (by omega : ¬ k + 1 = 0)]
      exact congrArg (· ++ [(k + 1) % 256])
        (bytesBEAux_congr _ _ _ (by omega) (by omega))

theorem bytesBE_nil_iff (n : Nat) : bytesBE n = [] ↔ n = 0 := by
  rw [bytesBE_eq]
  split
  · simp_all
  · simp_all

theorem bytesBE_len_mono : ∀ {m n : Nat}, m ≤ n →
    (bytesBE m).length ≤ (bytesBE n).length := by
  intro m n
  induction n using Nat.strong_induction_on generalizing m with
  | _ n ih =>
    intro h
    rcases Nat.eq_zero_or_pos m with rfl | hm
    · rw [bytesBE_eq 0]
      simp
    · have hn : 0 < n := by omega
      rw [bytesBE_eq m, bytesBE_eq n, if_neg (by omega), if_neg (by omega)]
      simp only [List.length_append, List.length_cons, List.length_nil]
      have : (bytesBE (m / 256)).length ≤ (bytesBE (n / 256)).length :=
        ih (n / 256) (Nat.div_lt_self hn (by omega)) (Nat.div_le_div_right h)
      omega

theorem lexLt_append_of_eqlen : ∀ {l1 l2 : Str}, lexLt l1 l2 = true →
    l1.length = l2.length → ∀ (s1 s2 : Str), lexLt (l1 ++ s1) (l2 ++ s2) = true
  | [], [], h, _, _, _ => by simp [lexLt] at h
  | [], _ :: _, _, hl, _, _ => by simp at hl
  | _ :: _, [], h, _, _, _ => by simp [lexLt] at h
  | a :: as, b :: bs, h, hl, s1, s2 => by
    rw [lexLt_cons_iff] at h
    simp only [List.cons_append]
    rcases h with h | ⟨rfl, h⟩
    · exact lexLt_cons_of_lt h _ _
    · rw [lexLt_cons_iff]
      exact Or.inr ⟨rfl, lexLt_append_of_eqlen h (by simpa using hl) s1 s2⟩

theorem bytesBE_lt_eqlen : ∀ {m n : Nat}, m < n →
    (bytesBE m).length = (bytesBE n).length →
    lexLt (bytesBE m) (bytesBE n) = true := by
  intro m n
  induction n using Nat.strong_induction_on generalizing m with
  | _ n ih =>
    intro h hl
    have hn : 0 < n := by omega
    rcases Nat.eq_zero_or_pos m with rfl | hm
    · rw [bytesBE_eq 0, bytesBE_eq n, if_pos rfl, if_neg (by omega)] at hl
      simp at hl
    · rw [bytesBE_eq m, bytesBE_eq n, if_neg (by omega), if_neg (by omega)] at hl ⊢
      have hq : m / 256 ≤ n / 256 := Nat.div_le_div_right (by omega)
      simp only [List.length_append, List.length_cons, List.length_nil] at hl
      rcases Nat.lt_or_ge (m / 256) (n / 256) with hqlt | hqge
      · exact lexLt_append_of_eqlen
          (ih (n / 256) (Nat.div_lt_self hn (by omega)) hqlt (by omega))
          (by omega) _ _
      · have hqe : m / 256 = n / 256 := by omega
        rw [hqe, lexLt_append_left]
        have hr : m % 256 < n % 256 := by omega
        simp [lexLt, hr]

theorem hexOfBytes_lt : ∀ {l1 l2 : List Nat}, lexLt l1 l2 = true →
    l1.length = l2.length → ∀ (s1 s2 : Str),
    lexLt (hexOfBytes l1 ++ s1) (hexOfBytes l2 ++ s2) = true
  | [], [], h, _, _, _ => by simp [lexLt] at h
  | [], _ :: _, _, hl, _, _ => by simp at hl
  | _ :: _, [], h, _, _, _ => by simp [lexLt] at h
  | a :: as, b :: bs, h, hl, s1, s2 => by
    rw [lexLt_cons_iff] at h
    have hcons : ∀ (x : Nat) (xs : List Nat) (s : Str),
        hexOfBytes (x :: xs) ++ s = byteToHex x ++ (hexOfBytes xs ++ s) := by
      intro x xs s
      simp [hexOfBytes, List.append_assoc]
    rw [hcons, hcons]
    rcases h with h | ⟨rfl, h⟩
    · exact byteToHex_lt h _ _
    · rw [lexLt_append_left]
      exact hexOfBytes_lt h (by simpa using hl) s1 s2

theorem hex_lt_append {m n : Nat} (h : m < n) (s1 s2 : Str) :
    lexLt (hex m ++ s1) (hex n ++ s2) = true := by
  have hsingle : ∀ (x : Nat) (s : Str),
      hexOfBytes [x] ++ s = byteToHex x ++ s := by
    intro x s
    simp [hexOfBytes]
  have hcons : ∀ (x : Nat) (xs : List Nat) (s : Str),
      hexOfBytes (x :: xs) ++ s = byteToHex x ++ (hexOfBytes xs ++ s) := by
    intro x xs s
    simp [hexOfBytes, List.append_assoc]
  unfold hex pack
  rcases le_or_lt n 250 with hn | hn
  · rw [if_pos (by omega), if_pos hn, hsingle, hsingle]
    exact byteToHex_lt h _ _
  · have hlenpos : 1 ≤ (bytesBE n).length := by
      have hne : bytesBE n ≠ [] := fun he => by
        have := (bytesBE_nil_iff n).mp he
        omega
      exact List.length_pos.mpr hne
    rcases le_or_lt m 250 with hm | hm
    · rw [if_pos hm, if_neg (by omega), hsingle, hcons]
      exact byteToHex_lt (by omega) _ _
    · rw [if_neg (by omega), if_neg (by omega), hcons, hcons]
      have hlm : (bytesBE m).length ≤ (bytesBE n).length :=
        bytesBE_len_mono (by omega)
      rcases Nat.lt_or_ge (bytesBE m).length (bytesBE n).length with hllt | hlge
      · exact byteToHex_lt (by omega) _ _
      · have hle : (bytesBE m).length = (bytesBE n).length := by omega
        rw [hle, lexLt_append_left]
        exact hexOfBytes_lt (bytesBE_lt_eqlen h hle) hle _ _

theorem hex_lt {m n : Nat} (h : m < n) : lexLt (hex m) (hex n) = true := by
  have := hex_lt_append h [] []
  simpa using this

/-! ## Claim theorems -/

/-- C2 (counterexample): a `sharectx` entry carrying starting seq 5, reduced
for a pair with no existing share record, produces a record whose cursor is
0, not the event's 5 — refuting the claim that the initial cursor equals the
seq field carried by the sharectx event. -/
theorem C2_sharectx_initial_seq_cex :
    ctxReduce none ⟨10, .sharectx (some [97]) (some [98]) 5⟩ =
      some ⟨[97], some [98], 0, some true⟩ ∧ (0 : Nat) ≠ 5 := by
  exact ⟨rfl, by decide⟩

/-- C2 (amended): when a `sharectx` entry is reduced for a pair with no
existing share record, the resulting record has `active = true` and its
initial cursor seq is 0, regardless of the seq field carried by the event
(`newContextState` destructures only `context` and `recipient`). -/
theorem C2_sharectx_fresh_record (c : Str) (r : Option Str) (s k : Nat)
    (hc : c ≠ []) :
    ctxReduce none ⟨k, .sharectx (some c) r s⟩ =
      some { context := c, recipient := r, seq := 0, active := some true } := by
  cases c with
  | nil => exact absurd rfl hc
  | cons x xs => rfl

/-- C2 (witness): the amended theorem applied at a concrete fresh share. -/
theorem C2_sharectx_fresh_record_witness :
    ctxReduce none ⟨10, .sharectx (some [97]) (some [98]) 5⟩ =
      some { context := [97], recipient := some [98], seq := 0,
             active := some true } :=
  C2_sharectx_fresh_record [97] (some [98]) 5 10 (by decide)

/-- C3 (counterexample): the share record's seq is not non-decreasing: after
`sharectx` (index 1) and a first-tier message at feed index 5 the cursor is
5, but a subsequent second-tier wrapper (index 9) whose original inner
message has feed index 3 rewinds the cursor to 3. -/
theorem C3_seq_decreases_cex :
    (foldShare
      [⟨1, .sharectx (some [97]) (some [98]) 0⟩,
       ⟨5, .newobj MESSAGE_TYPE [112] (some [97]) (some [98]) false none false 0⟩]).map
      ShareState.seq = some 5 ∧
    (foldShare
      [⟨1, .sharectx (some [97]) (some [98]) 0⟩,
       ⟨5, .newobj MESSAGE_TYPE [112] (some [97]) (some [98]) false none false 0⟩,
       ⟨9, .newobj MESSAGE_TYPE [113] none (some [98]) true (some [97]) true 3⟩]).map
      ShareState.seq = some 3 ∧ (3 : Nat) < 5 := by
  refine ⟨rfl, rfl, by decide⟩

/-- Structure of a non-drop update of the Share View's reduce on an existing
record: the new seq is either unchanged or the entry's derived cursor value. -/
theorem ctxReduce_some_seq (s : ShareState) (ch : Change) (ns : ShareState)
    (hv : ctxReduce (some s) ch = some ns) :
    ns.seq = s.seq ∨ derivedSeq ch = some ns.seq := by
  unfold ctxReduce at hv
  cases hch : ch.value with
  | newobj t pl ctx rcpt oiM oiCtx inner oseq =>
    rw [hch] at hv
    simp only [jsTruthy] at hv
    by_cases he : s.context.isEmpty
    · rw [he] at hv
      simp at hv
    · simp only [he, Bool.not_false, if_true] at hv
      cases inner with
      | true =>
        simp only [if_true, if_pos rfl] at hv
        rcases ite_eq_iff.mp hv with ⟨_, hnone⟩ | ⟨_, hsome⟩
        · exact absurd hnone (by simp)
        · injection hsome with h2
          rw [← h2]
          right
          simp [derivedSeq, hch]
      | false =>
        simp only [Bool.false_eq_true, if_false] at hv
        rcases ite_eq_iff.mp hv with ⟨_, hnone⟩ | ⟨_, hsome⟩
        · exact absurd hnone (by simp)
        · injection hsome with h2
          rw [← h2]
          right
          simp [derivedSeq, hch]
  | sharectx ctx rcpt q =>
    rw [hch] at hv
    simp only [jsTruthy] at hv
    by_cases he : s.context.isEmpty
    · rw [he] at hv
      simp at hv
    · simp only [he, Bool.not_false, if_true] at hv
      rcases ite_eq_iff.mp hv with ⟨_, hnone⟩ | ⟨_, hsome⟩
      · exact absurd hnone (by simp)
      · injection hsome with h2
        rw [← h2]
        left
        rfl
  | unsharectx ctx rcpt =>
    rw [hch] at hv
    simp only [jsTruthy] at hv
    by_cases he : s.context.isEmpty
    · rw [he] at hv
      simp at hv
    · simp only [he, Bool.not_false, if_true] at hv
      rcases ite_eq_iff.mp hv with ⟨_, hnone⟩ | ⟨_, hsome⟩
      · exact absurd hnone (by simp)
      · injection hsome with h2
        rw [← h2]
        left
        rfl

/-- C3 (amended): a `sharectx` or `unsharectx` update never changes the
record's seq, and a `newobj` update sets it to the entry's derived cursor
value (the entry's feed index, or the original inner message's feed index in
the second-tier case); hence every update whose derived cursor value is at
least the current seq leaves seq non-decreasing.  (The second-tier branch
may rewind seq when that proviso fails, as the counterexample shows.) -/
theorem C3_seq_nondecreasing_of_derived_ge (s : ShareState) (ch : Change)
    (hd : ∀ d, derivedSeq ch = some d → s.seq ≤ d) (s' : ShareState)
    (hstep : ctxStep (some s) ch = some s') : s.seq ≤ s'.seq := by
  unfold ctxStep at hstep
  by_cases hf : ctxFilter ch.value = true
  · rw [if_pos hf] at hstep
    cases hv : ctxReduce (some s) ch with
    | none =>
      rw [hv] at hstep
      cases hstep
      exact Nat.le_refl _
    | some ns =>
      rw [hv] at hstep
      cases hstep
      rcases ctxReduce_some_seq s ch s' hv with h | h
      · omega
      · exact hd _ h
  · rw [if_neg hf] at hstep
    cases hstep
    exact Nat.le_refl _

/-- C3 (witness): the amended theorem applied to a concrete first-tier update
whose feed index 7 is at least the current cursor 5. -/
theorem C3_seq_nondecreasing_witness :
    (ShareState.mk [97] (some [98]) 5 (some true)).seq ≤
      (ShareState.mk [97] (some [98]) 7 (some true)).seq :=
  C3_seq_nondecreasing_of_derived_ge ⟨[97], some [98], 5, some true⟩
    ⟨7, .newobj MESSAGE_TYPE [112] (some [97]) (some [98]) false none false 0⟩
    (by
      intro d hdd
      simp [derivedSeq] at hdd
      subst hdd
      decide)
    ⟨[97], some [98], 7, some true⟩ (by decide)

/-- C4: once a Message View row exists for a permalink, processing any
further feed entry — in particular any `newobj` entry with the same
permalink — leaves the row unchanged (first-writer-wins): the reduce returns
an existing state as-is, and entries keyed elsewhere do not touch it. -/
theorem C4_msg_row_immutable (view : Str → Option MsgState) (ch : Change)
    (p : Str) (s : MsgState) (h : view p = some s) :
    msgViewStep view ch p = some s := by
  unfold msgViewStep
  by_cases hf : msgFilter ch.value = true
  · rw [if_pos hf]
    cases hv : msgReduce (view (msgPrimaryKey ch.value)) ch with
    | none => exact h
    | some ns =>
      by_cases hp : p = msgPrimaryKey ch.value
      · subst hp
        rw [h] at hv
        unfold msgReduce at hv
        injection hv with h2
        simp [← h2]
      · simp only [if_neg hp]
        exact h
  · rw [if_neg hf]
    exact h

/-- C4 (witness): the theorem applied to a concrete view holding a row and a
re-observation of the same permalink. -/
theorem C4_msg_row_immutable_witness :
    msgViewStep
      (fun k => if k = [5] then some ⟨[5], [99], none, 4⟩ else none)
      ⟨9, .newobj MESSAGE_TYPE [5] (some [100]) (some [98]) false none false 0⟩
      [5] = some ⟨[5], [99], none, 4⟩ :=
  C4_msg_row_immutable _ _ [5] ⟨[5], [99], none, 4⟩ (by decide)

/-- C8 (counterexample): a `newobj` entry whose type field is `"s"` (not
`MESSAGE_TYPE`) is rejected by the Share View's filter — refuting the claim
that the filter accepts every `newobj` entry regardless of its type field. -/
theorem C8_ctx_filter_newobj_cex :
    ctxFilter (.newobj [115] [112] (some [97]) (some [98]) false none false 0)
      = false ∧ [115] ≠ MESSAGE_TYPE := by
  decide

/-- C8 (amended): the Share View's filter accepts a `newobj` entry only when
its type field equals `MESSAGE_TYPE`, and accepts every `sharectx` and
`unsharectx` entry. -/
theorem C8_ctx_filter_characterization (v : ChangeValue) :
    ctxFilter v = true ↔
      ((∃ pl ctx rcpt oiM oiCtx inner oseq,
          v = .newobj MESSAGE_TYPE pl ctx rcpt oiM oiCtx inner oseq) ∨
       (∃ ctx rcpt q, v = .sharectx ctx rcpt q) ∨
       (∃ ctx rcpt, v = .unsharectx ctx rcpt)) := by
  cases v with
  | newobj t pl ctx rcpt oiM oiCtx inner oseq =>
    constructor
    · intro ht
      have ht2 : t = MESSAGE_TYPE := by
        simpa [ctxFilter] using ht
      subst ht2
      exact Or.inl ⟨pl, ctx, rcpt, oiM, oiCtx, inner, oseq, rfl⟩
    · intro hr
      rcases hr with ⟨pl', ctx', rcpt', oiM', oiCtx', inner', oseq', he⟩ |
        ⟨a, b, q, he⟩ | ⟨a, b, he⟩
      · rw [ChangeValue.newobj.injEq] at he
        simp [ctxFilter, he.1]
      · cases he
      · cases he
  | sharectx ctx rcpt q =>
    constructor
    · intro hfil
      exact Or.inr (Or.inl ⟨ctx, rcpt, q, rfl⟩)
    · intro hr
      rfl
  | unsharectx ctx rcpt =>
    constructor
    · intro hfil
      exact Or.inr (Or.inr ⟨ctx, rcpt, rfl⟩)
    · intro hr
      rfl

/-- C9 (counterexample): the inflight map is keyed by the separator-less
concatenation `context + recipient`, so the two distinct pairs
`("ab", "c")` and `("a", "bc")` collide: after a session is allocated for
the first, the second — although no session was ever allocated for it — is
denied a session, refuting "two distinct pairs never prevent each other's
sessions from being created". -/
theorem C9_forward_collision_cex :
    (([97, 98], [99]) : Str × Str) ≠ ([97], [98, 99]) ∧
    (forwardStep (forwardStep [] [97, 98] [99]).1 [97] [98, 99]).2 = false := by
  decide

/-- C9 (amended): within a process, at most one forwarding session exists
per identifier `context ++ recipient`, and a cursor emission allocates a new
session exactly when that identifier is absent from the inflight map; two
distinct pairs interfere precisely when their concatenations coincide. -/
theorem C9_forward_session_iff_absent (m : List Str) (c r : Str) :
    (forwardStep m c r).2 = !(m.contains (forwardIdentifier c r)) ∧
    (forwardStep m c r).1.contains (forwardIdentifier c r) = true := by
  unfold forwardStep
  by_cases h : m.contains (forwardIdentifier c r) = true
  · rw [if_pos h]
    constructor
    · show false = !(m.contains (forwardIdentifier c r))
      rw [h]
      rfl
    · exact h
  · rw [if_neg h]
    simp_all

/-- C10: `share` and `unshare` validate nothing — for every input, including
ones with `context` or `recipient` missing, they append the corresponding
control entry (with the missing fields undefined and `seq` defaulting to 0)
without error; `position` and `createContextStream`, by contrast, fail
synchronously when a required field is missing. -/
theorem C10_share_unshare_no_validation (c r : Option Str) (s : Option Nat)
    (states : List ShareState) (idx : List (Str × MsgState)) :
    shareCall c r s = .ok (.sharectx c r (s.getD 0)) ∧
    unshareCall c r = .ok (.unsharectx c r) ∧
    (jsTruthy c = false →
      positionCall c r states = .error "expected context and recipient" ∧
      createContextStreamCall c s idx = .error "expected context") ∧
    (jsTruthy r = false →
      positionCall c r states = .error "expected context and recipient") := by
  refine ⟨rfl, rfl, ?_, ?_⟩
  · intro h
    refine ⟨?_, ?_⟩
    · unfold positionCall
      simp [h]
    · unfold createContextStreamCall
      simp [h]
  · intro h
    unfold positionCall
    simp [h]

/-- C10 (witness): the theorem applied with both fields missing for the
appends, and a missing context for `position`. -/
theorem C10_share_unshare_no_validation_witness :
    shareCall none none none = .ok (.sharectx none none 0) ∧
    positionCall none (some [98]) [] = .error "expected context and recipient" :=
  ⟨(C10_share_unshare_no_validation none none none [] []).1,
   ((C10_share_unshare_no_validation none (some [98]) none [] []).2.2.1 rfl).1⟩

/-- C1: evaluation at the failing input.  With the share cursor at seq = 5,
`createContextStream` invoked with starting seq 5 over a context index
holding exactly the message whose feed index is 5 emits that message: its
index key extends the `gt` bound `context + sep + hex(5)` by
`sep + permalink` and therefore sorts strictly above it — the claim (and the
repository's own restart test) say the message at the cursor is never
emitted. -/
theorem C1_resume_emits_cursor_seq_message :
    (MsgState.mk [112] [99] none 5).seq = 5 ∧
    createContextStream [99] (some 5)
      [(contextIndexKey ⟨[112], [99], none, 5⟩, ⟨[112], [99], none, 5⟩)] =
      [⟨[112], [99], none, 5⟩] := by
  constructor
  · rfl
  · decide

/-- Keys of rows of the same context compare by `seq`: the hex lexint
encoding preserves integer order and is prefix-free, so the comparison is
decided before the trailing `sep + permalink` fragments. -/
theorem contextIndexKey_lt {c p1 p2 : Str} {r1 r2 : Option Str} {i1 i2 : Nat}
    (h12 : i1 < i2) :
    lexLt (contextIndexKey ⟨p1, c, r1, i1⟩) (contextIndexKey ⟨p2, c, r2, i2⟩)
      = true := by
  show lexLt (c ++ [sep] ++ hex i1 ++ [sep] ++ p1)
      (c ++ [sep] ++ hex i2 ++ [sep] ++ p2) = true
  have ha : ∀ (h : Nat) (m : Str) (q : Str),
      c ++ [sep] ++ hex m.length ++ [sep] ++ q =
        c ++ (sep :: (hex m.length ++ sep :: q)) := by
    intro h m q
    simp [List.append_assoc]
  have h1 : c ++ [sep] ++ hex i1 ++ [sep] ++ p1 =
      c ++ (sep :: (hex i1 ++ sep :: p1)) := by
    simp [List.append_assoc]
  have h2 : c ++ [sep] ++ hex i2 ++ [sep] ++ p2 =
      c ++ (sep :: (hex i2 ++ sep :: p2)) := by
    simp [List.append_assoc]
  rw [h1, h2, lexLt_append_left]
  rw [lexLt_cons_iff]
  exact Or.inr ⟨rfl, hex_lt_append h12 _ _⟩

/-- C6: for two message records of the same context with feed indices
`i1 < i2`, the `context` index key of the first is lexicographically smaller
than that of the second (the hex lexint encoding preserves integer order),
and consequently a read of the context index — which emits rows of a
key-sorted index in order — yields the records in strictly increasing key
order, the lower-seq record before the higher-seq one. -/
theorem C6_context_index_orders_by_seq (c p1 p2 : Str) (r1 r2 : Option Str) (i1 i2 : Nat)
    (idx : List (Str × MsgState)) (s : Option Nat) (h12 : i1 < i2)
    (hsorted : idx.Pairwise (fun kv kv' => lexLt kv.1 kv'.1 = true))
    (hwf : ∀ kv ∈ idx, kv.1 = contextIndexKey kv.2) :
    lexLt (contextIndexKey ⟨p1, c, r1, i1⟩) (contextIndexKey ⟨p2, c, r2, i2⟩)
        = true ∧
    (createContextStream c s idx).Pairwise
      (fun m1 m2 => lexLt (contextIndexKey m1) (contextIndexKey m2) = true) := by
  refine ⟨contextIndexKey_lt h12, ?_⟩
  have h1 : idx.Pairwise
      (fun kv kv' => lexLt (contextIndexKey kv.2) (contextIndexKey kv'.2) = true) := by
    refine hsorted.imp_of_mem ?_
    intro a b ha hb hr
    rw [← hwf a ha, ← hwf b hb]
    exact hr
  unfold createContextStream readStream
  exact (h1.sublist (List.filter_sublist _)).map _ (fun a b hab => hab)

/-- C6 (witness): the theorem applied at concrete records and the empty
index. -/
theorem C6_context_index_orders_by_seq_witness :
    lexLt (contextIndexKey ⟨[112], [99], none, 1⟩)
        (contextIndexKey ⟨[113], [99], none, 2⟩) = true ∧
    (createContextStream [99] none []).Pairwise
      (fun m1 m2 => lexLt (contextIndexKey m1) (contextIndexKey m2) = true) :=
  C6_context_index_orders_by_seq [99] [112] [113] none none 1 2 [] none
    (by decide) (by simp) (by simp)

theorem isEmpty_false_of_ne {l : Str} (h : l ≠ []) : l.isEmpty = false := by
  cases l with
  | nil => exact absurd rfl h
  | cons x xs => rfl

theorem ctxStep_not_filtered (st : Option ShareState) (ch : Change)
    (hf : ctxFilter ch.value = false) : ctxStep st ch = st := by
  unfold ctxStep
  rw [hf]
  rfl

theorem ctxStep_sharectx_none (c' : Str) (hc' : c' ≠ []) (rcpt : Option Str)
    (q k : Nat) :
    ctxStep none ⟨k, .sharectx (some c') rcpt q⟩ =
      some ⟨c', rcpt, 0, some true⟩ := by
  cases c' with
  | nil => exact absurd rfl hc'
  | cons x xs => rfl

theorem ctxStep_sharectx_some (s : ShareState) (hs : s.context ≠ [])
    (ctx rcpt : Option Str) (q k : Nat) :
    ctxStep (some s) ⟨k, .sharectx ctx rcpt q⟩ =
      some { s with active := some true } := by
  unfold ctxStep ctxReduce
  simp only [ctxFilter, if_pos rfl, jsTruthy, isEmpty_false_of_ne hs,
    Bool.not_false, if_true]
  by_cases he : (some s : Option ShareState) = some { s with active := some true }
  · rw [if_pos he]
    exact he
  · rw [if_neg he]

theorem ctxStep_unsharectx_none (ctx rcpt : Option Str) (k : Nat) :
    ctxStep none ⟨k, .unsharectx ctx rcpt⟩ = none := by
  unfold ctxStep ctxReduce
  simp only [ctxFilter, if_pos rfl]
  by_cases hj : jsTruthy (getContext (.unsharectx ctx rcpt) true) = true
  · simp [hj]
  · simp [hj]

theorem ctxStep_unsharectx_some (s : ShareState) (hs : s.context ≠ [])
    (ctx rcpt : Option Str) (k : Nat) :
    ctxStep (some s) ⟨k, .unsharectx ctx rcpt⟩ =
      some { s with active := some false } := by
  unfold ctxStep ctxReduce
  simp only [ctxFilter, if_pos rfl, jsTruthy, isEmpty_false_of_ne hs,
    Bool.not_false, if_true]
  by_cases he : (some s : Option ShareState) = some { s with active := some false }
  · rw [if_pos he]
    exact he
  · rw [if_neg he]

theorem ctxStep_newobj_some (s : ShareState) (hs : s.context ≠ [])
    (pl : Str) (ctx rcpt : Option Str) (oiM : Bool) (oiCtx : Option Str)
    (inner : Bool) (oseq k : Nat) :
    ctxStep (some s) ⟨k, .newobj MESSAGE_TYPE pl ctx rcpt oiM oiCtx inner oseq⟩ =
      some { s with seq := if inner then oseq else k } := by
  unfold ctxStep ctxReduce
  simp only [ctxFilter, decide_eq_true_eq, if_pos rfl, jsTruthy,
    isEmpty_false_of_ne hs, Bool.not_false, if_true]
  cases inner with
  | true =>
    simp only [if_true, if_pos rfl]
    by_cases he : (some s : Option ShareState) = some { s with seq := oseq }
    · rw [if_pos he]
      exact he
    · rw [if_neg he]
  | false =>
    simp only [Bool.false_eq_true, if_false]
    by_cases he : (some s : Option ShareState) = some { s with seq := k }
    · rw [if_pos he]
      exact he
    · rw [if_neg he]

theorem ctxStep_newobj_none (c : Str) (hc : c ≠ []) (pl : Str)
    (ctx rcpt : Option Str) (oiM : Bool) (oiCtx : Option Str)
    (inner : Bool) (oseq k : Nat)
    (hctx : getContext (.newobj MESSAGE_TYPE pl ctx rcpt oiM oiCtx inner oseq)
      true = some c) :
    ctxStep none ⟨k, .newobj MESSAGE_TYPE pl ctx rcpt oiM oiCtx inner oseq⟩ =
      some ⟨c, rcpt, if inner then oseq else k, none⟩ := by
  unfold ctxStep ctxReduce
  simp only [ctxFilter, decide_eq_true_eq, if_pos rfl, hctx, jsTruthy,
    isEmpty_false_of_ne hc, Bool.not_false, if_true, newContextState]
  cases inner with
  | true => simp [Option.getD]
  | false => simp [Option.getD]

/-- Single-entry preservation of the Share-View active invariant: the folded
record keeps context `c`, and it is active exactly when the most recent
control verdict is `sharectx`. -/
theorem ctxStep_active_invariant (c : Str) (hc : c ≠ []) (ch : Change)
    (hch : getContext ch.value true = some c)
    (st : Option ShareState) (lc : Option Bool)
    (hctx : ∀ s, st = some s → s.context = c)
    (hact : (∃ s, st = some s ∧ s.active = some true) ↔ lc = some true) :
    (∀ s, ctxStep st ch = some s → s.context = c) ∧
    ((∃ s, ctxStep st ch = some s ∧ s.active = some true) ↔
      ctlStep lc ch = some true) := by
  obtain ⟨k, v⟩ := ch
  cases v with
  | newobj t pl ctx rcpt oiM oiCtx inner oseq =>
    by_cases ht : t = MESSAGE_TYPE
    · subst ht
      cases st with
      | none =>
        rw [ctxStep_newobj_none c hc pl ctx rcpt oiM oiCtx inner oseq k hch]
        refine ⟨?_, ?_⟩
        · intro s hs
          injection hs with h2
          rw [← h2]
        · simp only [ctlStep]
          rw [← hact]
          constructor
          · rintro ⟨s, hs, hsa⟩
            injection hs with h2
            rw [← h2] at hsa
            exact absurd hsa (by simp)
          · rintro ⟨s, hs, _⟩
            cases hs
      | some s0 =>
        have hs0 : s0.context = c := hctx s0 rfl
        rw [ctxStep_newobj_some s0 (by rw [hs0]; exact hc) pl ctx rcpt oiM
          oiCtx inner oseq k]
        refine ⟨?_, ?_⟩
        · intro s hs
          injection hs with h2
          rw [← h2]
          exact hs0
        · simp only [ctlStep]
          rw [← hact]
          constructor
          · rintro ⟨s, hs, hsa⟩
            injection hs with h2
            rw [← h2] at hsa
            exact ⟨s0, rfl, hsa⟩
          · rintro ⟨s, hs, hsa⟩
            injection hs with h2
            rw [← h2] at hsa
            exact ⟨_, rfl, hsa⟩
    · rw [ctxStep_not_filtered st ⟨k, .newobj t pl ctx rcpt oiM oiCtx inner oseq⟩
        (by simp [ctxFilter, ht])]
      exact ⟨hctx, by simpa only [ctlStep] using hact⟩
  | sharectx ctx rcpt q =>
    have hctxv : ctx = some c := hch
    subst hctxv
    cases st with
    | none =>
      rw [ctxStep_sharectx_none c hc rcpt q k]
      refine ⟨?_, ?_⟩
      · intro s hs
        injection hs with h2
        rw [← h2]
      · simp only [ctlStep]
        constructor
        · intro _
          simp
        · intro _
          exact ⟨_, rfl, rfl⟩
    | some s0 =>
      have hs0 : s0.context = c := hctx s0 rfl
      rw [ctxStep_sharectx_some s0 (by rw [hs0]; exact hc) (some c) rcpt q k]
      refine ⟨?_, ?_⟩
      · intro s hs
        injection hs with h2
        rw [← h2]
        exact hs0
      · simp only [ctlStep]
        constructor
        · intro _
          simp
        · intro _
          exact ⟨_, rfl, rfl⟩
  | unsharectx ctx rcpt =>
    cases st with
    | none =>
      rw [ctxStep_unsharectx_none ctx rcpt k]
      refine ⟨fun s hs => absurd hs (by simp), ?_⟩
      simp only [ctlStep]
      constructor
      · rintro ⟨s, hs, _⟩
        cases hs
      · intro hcon
        exact absurd hcon (by simp)
    | some s0 =>
      have hs0 : s0.context = c := hctx s0 rfl
      rw [ctxStep_unsharectx_some s0 (by rw [hs0]; exact hc) ctx rcpt k]
      refine ⟨?_, ?_⟩
      · intro s hs
        injection hs with h2
        rw [← h2]
        exact hs0
      · simp only [ctlStep]
        constructor
        · rintro ⟨s, hs, hsa⟩
          injection hs with h2
          rw [← h2] at hsa
          exact absurd hsa (by simp)
        · intro hcon
          exact absurd hcon (by simp)

/-- Fold-level Share-View active invariant. -/
theorem foldl_active_invariant (c : Str) (hc : c ≠ []) :
    ∀ (feed : List Change) (st : Option ShareState) (lc : Option Bool),
    (∀ ch ∈ feed, getContext ch.value true = some c) →
    (∀ s, st = some s → s.context = c) →
    ((∃ s, st = some s ∧ s.active = some true) ↔ lc = some true) →
    (∀ s, feed.foldl ctxStep st = some s → s.context = c) ∧
    ((∃ s, feed.foldl ctxStep st = some s ∧ s.active = some true) ↔
      feed.foldl ctlStep lc = some true) := by
  intro feed
  induction feed with
  | nil =>
    intro st lc _ hctx hact
    exact ⟨hctx, hact⟩
  | cons ch rest ih =>
    intro st lc hfeed hctx hact
    have hstep := ctxStep_active_invariant c hc ch
      (hfeed ch (List.mem_cons_self _ _)) st lc hctx hact
    simp only [List.foldl_cons]
    exact ih (ctxStep st ch) (ctlStep lc ch)
      (fun ch2 h2 => hfeed ch2 (List.mem_cons_of_mem _ h2)) hstep.1 hstep.2

/-- A `some true` control verdict requires a `sharectx` entry. -/
theorem ctl_true_has_sharectx :
    ∀ (feed : List Change) (acc : Option Bool),
    feed.foldl ctlStep acc = some true →
    hasSharectx feed = true ∨ acc = some true := by
  intro feed
  induction feed with
  | nil =>
    intro acc h
    exact Or.inr h
  | cons ch rest ih =>
    intro acc h
    simp only [List.foldl_cons] at h
    rcases ih (ctlStep acc ch) h with h2 | h2
    · left
      simp only [hasSharectx, List.any_cons] at h2 ⊢
      rw [h2]
      simp
    · obtain ⟨k, v⟩ := ch
      cases v with
      | newobj t pl ctx rcpt oiM oiCtx inner oseq =>
        right
        simpa only [ctlStep] using h2
      | sharectx ctx rcpt q =>
        left
        simp [hasSharectx]
      | unsharectx ctx rcpt =>
        exact absurd h2 (by simp [ctlStep])

/-- C5: after processing a feed prefix of entries attributed to the pair's
context `c`, the `cfr` index owns a row for the pair exactly when the prefix
contains at least one `sharectx` and the most recent control entry
(`sharectx`/`unsharectx`) is a `sharectx` — equivalently, exactly when the
share record exists with `active == true`. -/
theorem C5_cfr_iff_last_control_share (c : Str) (feed : List Change)
    (hc : c ≠ [])
    (hfeed : ∀ ch ∈ feed, getContext ch.value true = some c) :
    hasCfrRow (foldShare feed) =
      (hasSharectx feed && (ctlFold feed == some true)) := by
  have hinv := foldl_active_invariant c hc feed none none hfeed
    (fun s hs => absurd hs (by simp)) (by
      constructor
      · rintro ⟨s, hs, _⟩
        cases hs
      · intro hcon
        exact absurd hcon (by simp))
  rcases hlc : ctlFold feed with _ | b
  · have hno : ¬ ∃ s, foldShare feed = some s ∧ s.active = some true := by
      rw [foldShare]
      intro hex
      have := hinv.2.mp hex
      rw [ctlFold] at hlc
      rw [hlc] at this
      cases this
    rcases hst : foldShare feed with _ | s
    · simp [hasCfrRow]
    · have hsa : ¬ s.active = some true := fun hsa => hno ⟨s, hst, hsa⟩
      have hcfr : cfrKey s = none := by
        unfold cfrKey
        have : s.active.getD false = false := by
          cases ha : s.active with
          | none => rfl
          | some b2 =>
            cases b2 with
            | true => exact absurd ha hsa
            | false => rfl
        rw [this]
        simp
      simp [hasCfrRow, hcfr, Bool.eq_false_iff]
  · cases b with
    | true =>
      have hex : ∃ s, foldShare feed = some s ∧ s.active = some true := by
        apply hinv.2.mpr
        rw [ctlFold] at hlc
        exact hlc
      obtain ⟨s, hst, hsa⟩ := hex
      have hsc : s.context = c := hinv.1 s hst
      have hcfr : (cfrKey s).isSome = true := by
        unfold cfrKey
        rw [hsa]
        simp [isEmpty_false_of_ne (hsc ▸ hc)]
      have hshare : hasSharectx feed = true := by
        rcases ctl_true_has_sharectx feed none (by rw [← ctlFold, hlc]) with h | h
        · exact h
        · cases h
      unfold hasCfrRow
      rw [hst]
      simp [hcfr, hshare]
    | false =>
      have hno : ¬ ∃ s, foldShare feed = some s ∧ s.active = some true := by
        rw [foldShare]
        intro hex
        have := hinv.2.mp hex
        rw [ctlFold] at hlc
        rw [hlc] at this
        cases this
      rcases hst : foldShare feed with _ | s
      · simp [hasCfrRow, hlc]
      · have hsa : ¬ s.active = some true := fun hsa => hno ⟨s, hst, hsa⟩
        have hcfr : cfrKey s = none := by
          unfold cfrKey
          have : s.active.getD false = false := by
            cases ha : s.active with
            | none => rfl
            | some b2 =>
              cases b2 with
              | true => exact absurd ha hsa
              | false => rfl
          rw [this]
          simp
        simp [hasCfrRow, hcfr, hlc]

/-- C5 (witness): the theorem applied to the one-entry feed `[sharectx]`. -/
theorem C5_cfr_iff_last_control_share_witness :
    hasCfrRow (foldShare [⟨1, .sharectx (some [97]) (some [98]) 0⟩]) =
      (hasSharectx [⟨1, .sharectx (some [97]) (some [98]) 0⟩] &&
        (ctlFold [⟨1, .sharectx (some [97]) (some [98]) 0⟩] == some true)) :=
  C5_cfr_iff_last_control_share [97] [⟨1, .sharectx (some [97]) (some [98]) 0⟩]
    (by decide) (by decide)

theorem lexLe_iff {a b : Str} : lexLe a b = true ↔ a = b ∨ lexLt a b = true := by
  simp [lexLe]

theorem lexLt_nil_right (l : Str) : lexLt l [] = false := by
  cases l <;> rfl

theorem lexLe_cons_self (x : Nat) (A B : Str) :
    lexLe (x :: A) (x :: B) = lexLe A B := by
  by_cases h : A = B
  · subst h
    simp [lexLe]
  · have h2 : ¬ (x :: A = x :: B) := by
      intro hcon
      injection hcon with _ hc2
      exact h hc2
    have e1 : lexLe (x :: A) (x :: B) = lexLt (x :: A) (x :: B) := by
      rw [lexLe]
      simp [h]
    have e2 : lexLe A B = lexLt A B := by
      rw [lexLe]
      simp [h]
    rw [e1, e2]
    simp [lexLt]

theorem lexLe_append_left (l a b : Str) :
    lexLe (l ++ a) (l ++ b) = lexLe a b := by
  induction l with
  | nil => rfl
  | cons x xs ih =>
    simp only [List.cons_append, lexLe_cons_self]
    exact ih

theorem lexLe_head_lt {x y : Nat} {A B : Str} (hxy : x ≠ y)
    (h : lexLe (x :: A) (y :: B) = true) : x < y := by
  rw [lexLe_iff] at h
  rcases h with h | h
  · injection h with h1 _
    exact absurd h1 hxy
  · rw [lexLt_cons_iff] at h
    rcases h with h | ⟨h, _⟩
    · exact h
    · exact absurd h hxy

/-- Two separator-framed keys that bound each other have equal leading
(separator-free) fragments. -/
theorem sep_framed_ctx_eq : ∀ (a b α β γ : Str),
    (∀ x ∈ a, sep < x) → (∀ x ∈ b, sep < x) →
    lexLe (a ++ sep :: α) (b ++ sep :: β) = true →
    lexLe (b ++ sep :: β) (a ++ sep :: γ) = true →
    a = b := by
  intro a
  induction a with
  | nil =>
    intro b α β γ _ hb h1 h2
    cases b with
    | nil => rfl
    | cons y b' =>
      have hy : sep < y := hb y (List.mem_cons_self _ _)
      simp only [List.cons_append, List.nil_append] at h2
      have := lexLe_head_lt (by omega : y ≠ sep) h2
      omega
  | cons x a' ih =>
    intro b α β γ ha hb h1 h2
    cases b with
    | nil =>
      have hx : sep < x := ha x (List.mem_cons_self _ _)
      simp only [List.cons_append, List.nil_append] at h1
      have := lexLe_head_lt (by omega : x ≠ sep) h1
      omega
    | cons y b' =>
      simp only [List.cons_append] at h1 h2
      by_cases hxy : x = y
      · subst hxy
        rw [lexLe_cons_self] at h1 h2
        have := ih b' α β γ
          (fun z hz => ha z (List.mem_cons_of_mem _ hz))
          (fun z hz => hb z (List.mem_cons_of_mem _ hz)) h1 h2
        rw [this]
      · have hl1 := lexLe_head_lt hxy h1
        have hl2 := lexLe_head_lt (Ne.symm hxy) h2
        omega

/-- A separator-terminated (separator-free) fragment that is bounded between
a fragment and that fragment's separator-terminated form equals it. -/
theorem sep_terminated_eq : ∀ (r v : Str),
    (∀ x ∈ r, sep < x) → (∀ x ∈ v, sep < x) →
    lexLe r (v ++ [sep]) = true → lexLe (v ++ [sep]) (r ++ [sep]) = true →
    v = r := by
  intro r
  induction r with
  | nil =>
    intro v _ hv h1 h2
    cases v with
    | nil => rfl
    | cons z v' =>
      have hz : sep < z := hv z (List.mem_cons_self _ _)
      simp only [List.cons_append, List.nil_append] at h2
      have := lexLe_head_lt (by omega : z ≠ sep) h2
      omega
  | cons a r' ih =>
    intro v ha hv h1 h2
    cases v with
    | nil =>
      have hax : sep < a := ha a (List.mem_cons_self _ _)
      simp only [List.nil_append] at h1
      have := lexLe_head_lt (by omega : a ≠ sep) h1
      omega
    | cons z v' =>
      simp only [List.cons_append] at h1 h2
      by_cases haz : a = z
      · subst haz
        rw [lexLe_cons_self] at h1 h2
        have := ih v'
          (fun w hw => ha w (List.mem_cons_of_mem _ hw))
          (fun w hw => hv w (List.mem_cons_of_mem _ hw)) h1 h2
        rw [this]
      · have hl1 := lexLe_head_lt haz h1
        have hl2 := lexLe_head_lt (Ne.symm haz) h2
        omega

theorem cfrKey_eq_some {s : ShareState} {k : Str} (h : cfrKey s = some k) :
    s.active = some true ∧ s.context ≠ [] ∧
      k = s.context ++ [sep] ++ s.recipient.getD [] ++ [sep] := by
  unfold cfrKey at h
  rcases ite_eq_iff.mp h with ⟨_, hno⟩ | ⟨hcond, hk⟩
  · exact absurd hno (by simp)
  · rw [Bool.or_eq_true, not_or] at hcond
    obtain ⟨hne, hna⟩ := hcond
    refine ⟨?_, ?_, ?_⟩
    · cases ha : s.active with
      | none =>
        rw [ha] at hna
        exact absurd rfl hna
      | some b =>
        cases b with
        | true => rfl
        | false =>
          rw [ha] at hna
          exact absurd rfl hna
    · intro hcon
      rw [hcon] at hne
      exact hne rfl
    · injection hk with h2
      rw [h2]

theorem cfrKey_of_active {s : ShareState} (ha : s.active = some true)
    (hc : s.context ≠ []) :
    cfrKey s = some (s.context ++ [sep] ++ s.recipient.getD [] ++ [sep]) := by
  unfold cfrKey
  rw [ha, isEmpty_false_of_ne hc]
  rfl

/-- Membership in the `position` read: with separator-free non-empty pair
fragments and well-formed states, the `eq`-bounded read over the `cfr` index
followed by the active filter selects exactly the active share records of
the pair. -/
theorem position_read_mem (c r : Str) (states : List ShareState)
    (hc : c ≠ []) (hcgt : ∀ x ∈ c, sep < x)
    (hr : r ≠ []) (hrgt : ∀ x ∈ r, sep < x)
    (hwf : ∀ s ∈ states,
      (∀ x ∈ s.context, sep < x) ∧ (∀ x ∈ s.recipient.getD [], sep < x))
    (z : ShareState) :
    z ∈ (readStreamEq (cfrIndex states) (c ++ [sep] ++ r)).filter
        (fun d => d.active = some true) ↔
      z ∈ states ∧ z.context = c ∧ z.recipient = some r ∧
        z.active = some true := by
  rw [List.mem_filter]
  unfold readStreamEq
  rw [List.mem_map]
  constructor
  · rintro ⟨⟨kv, hkv, hsnd⟩, hzact⟩
    rw [List.mem_filter] at hkv
    obtain ⟨hkvidx, hrange⟩ := hkv
    unfold cfrIndex at hkvidx
    rw [List.mem_filterMap] at hkvidx
    obtain ⟨s, hsmem, hmap⟩ := hkvidx
    rcases hkey : cfrKey s with _ | k
    · rw [hkey] at hmap
      cases hmap
    · rw [hkey] at hmap
      simp only [Option.map_some'] at hmap
      injection hmap with hmap2
      subst hmap2
      have hsz : s = z := hsnd
      obtain ⟨hact, hctxne, hkval⟩ := cfrKey_eq_some hkey
      simp only [Bool.and_eq_true] at hrange
      obtain ⟨hlow, hhigh⟩ := hrange
      rw [hkval] at hlow hhigh
      have eq1 : s.context ++ [sep] ++ s.recipient.getD [] ++ [sep] =
          (s.context ++ [sep]) ++ (s.recipient.getD [] ++ [sep]) := by
        simp [List.append_assoc]
      have eq2 : c ++ [sep] ++ r = (c ++ [sep]) ++ r := by
        simp [List.append_assoc]
      have eq3 : (c ++ [sep] ++ r) ++ [sep] = (c ++ [sep]) ++ (r ++ [sep]) := by
        simp [List.append_assoc]
      have hctxeq : c = s.context := by
        refine sep_framed_ctx_eq c s.context r (s.recipient.getD [] ++ [sep])
          (r ++ [sep]) hcgt (hwf s hsmem).1 ?_ ?_
        · have h5 := hlow
          rw [eq1] at h5
          simpa [List.append_assoc] using h5
        · have h5 := hhigh
          rw [eq1] at h5
          simpa [List.append_assoc] using h5
      rw [eq1, ← hctxeq, eq2] at hlow
      rw [eq1, ← hctxeq, eq3] at hhigh
      rw [lexLe_append_left] at hlow hhigh
      have hveq : s.recipient.getD [] = r :=
        sep_terminated_eq r (s.recipient.getD []) hrgt (hwf s hsmem).2
          hlow hhigh
      have hrcpt : s.recipient = some r := by
        cases hz : s.recipient with
        | none =>
          rw [hz] at hveq
          exact absurd hveq.symm hr
        | some w =>
          rw [hz] at hveq
          simp only [Option.getD_some] at hveq
          rw [hveq]
      exact hsz ▸ ⟨hsmem, hctxeq.symm, hrcpt, hact⟩
  · rintro ⟨hmem, hctx, hrcpt, hact⟩
    have hkey : cfrKey z = some (c ++ [sep] ++ r ++ [sep]) := by
      rw [cfrKey_of_active hact (by rw [hctx]; exact hc)]
      rw [hctx, hrcpt]
      rfl
    refine ⟨⟨(c ++ [sep] ++ r ++ [sep], z), ?_, rfl⟩, by simp [hact]⟩
    rw [List.mem_filter]
    constructor
    · unfold cfrIndex
      rw [List.mem_filterMap]
      exact ⟨z, hmem, by rw [hkey]; rfl⟩
    · simp only [Bool.and_eq_true]
      constructor
      · have ha : c ++ [sep] ++ r ++ [sep] = (c ++ [sep] ++ r) ++ [sep] := by
          simp [List.append_assoc]
        rw [lexLe_iff, ha]
        exact Or.inr (lexLt_append_right _ (by simp))
      · have ha : c ++ [sep] ++ r ++ [sep] = (c ++ [sep] ++ r) ++ [sep] := by
          simp [List.append_assoc]
        rw [lexLe_iff]
        exact Or.inl (by rw [ha])

/-- C7: for a pair with both context and recipient supplied (non-empty,
separator-free, as are all stored fragments), `position` calls back with the
share record's seq exactly when an active share record exists for the pair,
and fails with the NOT_SHARED error (`'context not shared with recipient'`)
exactly when none exists — whether the pair was never shared or was last
unshared. -/
theorem C7_position_active_share (c r : Str) (states : List ShareState)
    (q : Nat)
    (hc : c ≠ []) (hcgt : ∀ x ∈ c, sep < x)
    (hr : r ≠ []) (hrgt : ∀ x ∈ r, sep < x)
    (hwf : ∀ s ∈ states,
      (∀ x ∈ s.context, sep < x) ∧ (∀ x ∈ s.recipient.getD [], sep < x))
    (huniq : ∀ s1 ∈ states, ∀ s2 ∈ states,
      s1.context = s2.context → s1.recipient = s2.recipient → s1 = s2) :
    (positionCall (some c) (some r) states = .ok q ↔
      ∃ z ∈ states, z.context = c ∧ z.recipient = some r ∧
        z.active = some true ∧ z.seq = q) ∧
    (positionCall (some c) (some r) states =
        .error "context not shared with recipient" ↔
      ¬ ∃ z ∈ states, z.context = c ∧ z.recipient = some r ∧
        z.active = some true) := by
  have hguard : (!(jsTruthy (some c) && jsTruthy (some r))) = false := by
    simp [jsTruthy, isEmpty_false_of_ne hc, isEmpty_false_of_ne hr]
  have hmem := position_read_mem c r states hc hcgt hr hrgt hwf
  have hpos : positionCall (some c) (some r) states =
      (match (readStreamEq (cfrIndex states) (c ++ [sep] ++ r)).filter
          (fun d => d.active = some true) with
        | [] => .error "context not shared with recipient"
        | d :: _ => .ok d.seq) := by
    unfold positionCall
    rw [hguard]
    rfl
  rcases hL : (readStreamEq (cfrIndex states) (c ++ [sep] ++ r)).filter
      (fun d => d.active = some true) with _ | ⟨d, t⟩
  · have hpos2 : positionCall (some c) (some r) states =
        .error "context not shared with recipient" := by
      rw [hpos, hL]
    rw [hpos2]
    constructor
    · constructor
      · intro hcon
        cases hcon
      · rintro ⟨z, hz, hctx, hrcpt, hact, hseq⟩
        have hzmem := (hmem z).mpr ⟨hz, hctx, hrcpt, hact⟩
        rw [hL] at hzmem
        cases hzmem
    · constructor
      · rintro _ ⟨z, hz, hctx, hrcpt, hact⟩
        have hzmem := (hmem z).mpr ⟨hz, hctx, hrcpt, hact⟩
        rw [hL] at hzmem
        cases hzmem
      · intro _
        rfl
  · have hpos2 : positionCall (some c) (some r) states = .ok d.seq := by
      rw [hpos, hL]
    rw [hpos2]
    have hd : d ∈ (readStreamEq (cfrIndex states)
        (c ++ [sep] ++ r)).filter (fun df => df.active = some true) := by
      rw [hL]
      exact List.mem_cons_self _ _
    obtain ⟨hdmem, hdctx, hdrcpt, hdact⟩ := (hmem d).mp hd
    constructor
    · constructor
      · intro hok
        injection hok with hq
        exact ⟨d, hdmem, hdctx, hdrcpt, hdact, hq⟩
      · rintro ⟨z, hz, hctx, hrcpt, hact, hseq⟩
        have hzd : z = d :=
          huniq z hz d hdmem (by rw [hctx, hdctx]) (by rw [hrcpt, hdrcpt])
        rw [hzd] at hseq
        rw [hseq]
    · constructor
      · intro hcon
        cases hcon
      · intro hno
        exact absurd ⟨d, hdmem, hdctx, hdrcpt, hdact⟩ hno

/-- C7 (witness): the theorem applied at a concrete active share record. -/
theorem C7_position_active_share_witness :
    positionCall (some [99]) (some [114])
      [⟨[99], some [114], 7, some true⟩] = .ok 7 :=
  (C7_position_active_share [99] [114] [⟨[99], some [114], 7, some true⟩] 7
    (by decide) (by decide) (by decide) (by decide) (by decide)
    (by decide)).1.mpr
    ⟨⟨[99], some [114], 7, some true⟩, by decide, rfl, rfl, rfl, rfl⟩

end TradleCtx
